import Mathlib

/-!
# Verification of the `Zip` / `ZipTrusted` lockstep iterator combinators

Shallow embedding of `src/ziptuple.rs`.  A Rust iterator is modelled by the
list of elements it has yet to yield; `next` pops the head of that list.  An
`N`-tuple of heterogeneously typed iterators is modelled by a dependent
function `(i : Fin n) → List (α i)`; the macro `impl_zip_iter!` / the macro
`impl_zip_trusted!` instantiate the same template at every arity 1..9, which
the recursion over `n` below renders uniformly.  `size_hint` values are
`Nat × Option Nat` pairs (`usize` widened to `Nat`, with `usize::MAX`
modelled by the constant `USIZE_MAX`).
-/

set_option autoImplicit false

universe u

namespace Itertools

/-- Model of `::std::usize::MAX` (64-bit target). -/
def USIZE_MAX : Nat := 2 ^ 64 - 1

/-- `Zip::next` from `impl_zip_iter!`: pull from each component left to
right; at the first component that yields `None`, return `None` at once —
components already pulled on this call stay advanced (the
"partial consume" the source warns about).  The returned pair is
(yielded item, state of the component tuple after the call). -/
def Zip.next : {n : Nat} → (α : Fin n → Type u) → ((i : Fin n) → List (α i)) →
    Option ((i : Fin n) → α i) × ((i : Fin n) → List (α i))
  | 0, _, ts => (some (fun i => i.elim0), ts)
  | _ + 1, α, ts =>
    match ts 0 with
    | [] => (none, ts)
    | x :: rest =>
      let r := Zip.next (fun i => α i.succ) (fun i => ts i.succ)
      (r.1.map (fun tup => Fin.cons x tup), Fin.cons rest r.2)

/-- Repeatedly call `Zip.next`, collecting the yielded tuples, for at most
`fuel` calls; stop at the first call that yields `None`. -/
def Zip.run : {n : Nat} → (α : Fin n → Type u) → Nat → ((i : Fin n) → List (α i)) →
    List ((i : Fin n) → α i) × ((i : Fin n) → List (α i))
  | _, _, 0, ts => ([], ts)
  | _, α, fuel + 1, ts =>
    match Zip.next α ts with
    | (none, ts') => ([], ts')
    | (some tup, ts') =>
      let r := Zip.run α fuel ts'
      (tup :: r.1, r.2)

/-- `min(L1..LN)`: the minimum of the component lists' lengths (defined for
arity `n + 1 ≥ 1`, the arities the macros generate). -/
def minLen : {n : Nat} → (α : Fin (n + 1) → Type u) → ((i : Fin (n + 1)) → List (α i)) → Nat
  | 0, _, ts => (ts 0).length
  | _ + 1, α, ts => min ((ts 0).length) (minLen (fun i => α i.succ) (fun i => ts i.succ))

/-- The upper-bound update in `Zip::size_hint`:
`match (high, h) { (Some u1, Some u2) => Some(min(u1, u2)), _ => high.or(h) }`. -/
def ominNat (high h : Option Nat) : Option Nat :=
  match high, h with
  | some u1, some u2 => some (min u1 u2)
  | _, _ => high.or h

/-- One step of the accumulator update in `Zip::size_hint`:
`low = min(low, l)` and the upper-bound match above. -/
def combineHint (acc : Nat × Option Nat) (bh : Nat × Option Nat) : Nat × Option Nat :=
  (min acc.1 bh.1, ominNat acc.2 bh.2)

/-- `Zip::size_hint`: fold `combineHint` over the components' size hints,
starting from `(usize::MAX, None)`.  The size hint of a general component
iterator is an arbitrary pair, so the components enter as the list of the
pairs their `size_hint()` calls return, in component order. -/
def Zip.size_hint (hints : List (Nat × Option Nat)) : Nat × Option Nat :=
  hints.foldl combineHint (USIZE_MAX, none)

/-- `Zip::size_hint` takes `&self`: rendered as a state-passing call that
returns the computed hint together with the (unchanged) borrowed state. -/
def Zip.size_hint_call (hints : List (Nat × Option Nat)) :
    (Nat × Option Nat) × List (Nat × Option Nat) :=
  (Zip.size_hint hints, hints)

/-- `ZipTrusted<T>`: the component tuple plus the cached `length` field. -/
structure ZipTrusted {n : Nat} (α : Fin n → Type u) where
  length : Nat
  t : (i : Fin n) → List (α i)

/-- The fold inside `ZipTrusted::set_length`: `len = MAX;` then
`len = min(len, l)` over each component's reported size hint, in order
(the `debug_assert!(Some(l) == h)` is a debug-only check with no effect on
the stored value). -/
def ZipTrusted.set_length {n : Nat} (hints : Fin n → Nat × Option Nat) : Nat :=
  (List.ofFn (fun i => (hints i).1)).foldl min USIZE_MAX

/-- `ZipTrusted::new`: store the components and cache
`length := set_length(hints)`, where `hints i` is what component `i`'s
`size_hint()` returns at construction time. -/
def ZipTrusted.new {n : Nat} (α : Fin n → Type u) (hints : Fin n → Nat × Option Nat)
    (t : (i : Fin n) → List (α i)) : ZipTrusted α :=
  { length := ZipTrusted.set_length hints, t := t }

/-- The size hint a component honouring the exact-size contract reports:
lower = upper = its actual remaining length. -/
def exactHints {n : Nat} (α : Fin n → Type u) (t : (i : Fin n) → List (α i)) :
    Fin n → Nat × Option Nat :=
  fun i => ((t i).length, some ((t i).length))

/-- `ZipTrusted::next` read at the source level (the
`::std::intrinsics::assume` is an optimizer hint with no source-level
effect): if `length == 0` return `None` touching nothing; otherwise run the
same left-to-right pull loop as `Zip::next`, and only on full success
decrement `length` and yield the tuple. -/
def ZipTrusted.next {n : Nat} {α : Fin n → Type u} (z : ZipTrusted α) :
    Option ((i : Fin n) → α i) × ZipTrusted α :=
  if z.length = 0 then (none, z)
  else
    match Zip.next α z.t with
    | (none, t') => (none, { length := z.length, t := t' })
    | (some tup, t') => (some tup, { length := z.length - 1, t := t' })

/-- `ZipTrusted::size_hint`: `(self.length, Some(self.length))`. -/
def ZipTrusted.size_hint {n : Nat} {α : Fin n → Type u} (z : ZipTrusted α) :
    Nat × Option Nat :=
  (z.length, some z.length)

/-- `ZipTrusted::size_hint` takes `&self`: state-passing rendering. -/
def ZipTrusted.size_hint_call {n : Nat} {α : Fin n → Type u} (z : ZipTrusted α) :
    (Nat × Option Nat) × ZipTrusted α :=
  (ZipTrusted.size_hint z, z)

/-- Repeatedly call `ZipTrusted.next`, collecting the yielded tuples, for at
most `fuel` calls; stop at the first call that yields `None`. -/
def ZipTrusted.run {n : Nat} (α : Fin n → Type u) : Nat → ZipTrusted α →
    List ((i : Fin n) → α i) × ZipTrusted α
  | 0, z => ([], z)
  | fuel + 1, z =>
    match z.next with
    | (none, z') => ([], z')
    | (some tup, z') =>
      let r := ZipTrusted.run α fuel z'
      (tup :: r.1, r.2)

/-! ## Helper lemmas on `Zip.next` -/

theorem Zip.next_nil {n : Nat} (α : Fin (n + 1) → Type u) (ts : (i : Fin (n + 1)) → List (α i))
    (h : ts 0 = []) : Zip.next α ts = (none, ts) := by
  simp [Zip.next, h]

theorem Zip.next_cons {n : Nat} (α : Fin (n + 1) → Type u) (ts : (i : Fin (n + 1)) → List (α i))
    (x : α 0) (rest : List (α 0)) (h : ts 0 = x :: rest) :
    Zip.next α ts =
      ((Zip.next (fun i => α i.succ) (fun i => ts i.succ)).1.map (fun tup => Fin.cons x tup),
        Fin.cons rest (Zip.next (fun i => α i.succ) (fun i => ts i.succ)).2) := by
  simp [Zip.next, h]

theorem Zip.next_of_nonempty : ∀ {n : Nat} (α : Fin n → Type u)
    (ts : (i : Fin n) → List (α i)) (h : ∀ i, ts i ≠ []),
    Zip.next α ts = (some (fun i => (ts i).head (h i)), fun i => (ts i).tail)
  | 0, α, ts, h => by
    simp only [Zip.next, Prod.mk.injEq, Option.some.injEq]
    constructor
    · funext i; exact i.elim0
    · funext i; exact i.elim0
  | n + 1, α, ts, h => by
    rcases hts : ts 0 with _ | ⟨x, rest⟩
    · exact absurd hts (h 0)
    · rw [Zip.next_cons α ts x rest hts,
        Zip.next_of_nonempty (fun i => α i.succ) (fun i => ts i.succ) (fun i => h i.succ)]
      simp only [Option.map_some', Prod.mk.injEq, Option.some.injEq]
      constructor
      · funext i
        induction i using Fin.cases with
        | zero => simp [hts]
        | succ j => simp
      · funext i
        induction i using Fin.cases with
        | zero => simp [hts]
        | succ j => simp

theorem Zip.next_fst_of_empty : ∀ {n : Nat} (α : Fin n → Type u)
    (ts : (i : Fin n) → List (α i)) (i : Fin n), ts i = [] → (Zip.next α ts).1 = none
  | _ + 1, α, ts, i, hi => by
    rcases hts : ts 0 with _ | ⟨x, rest⟩
    · rw [Zip.next_nil α ts hts]
    · rw [Zip.next_cons α ts x rest hts]
      rcases Fin.eq_zero_or_eq_succ i with h0 | ⟨j, hj⟩
      · rw [h0, hts] at hi; exact absurd hi (List.cons_ne_nil x rest)
      · have hj' : ts j.succ = [] := by rw [hj] at hi; exact hi
        have := Zip.next_fst_of_empty (fun i => α i.succ) (fun i => ts i.succ) j hj'
        simp [this]

theorem Zip.next_first_empty : ∀ {n : Nat} (α : Fin n → Type u)
    (ts : (i : Fin n) → List (α i)) (i : Fin n),
    (∀ j, j < i → ts j ≠ []) → ts i = [] →
    (Zip.next α ts).1 = none ∧
      ∀ j, (Zip.next α ts).2 j = if j < i then (ts j).tail else ts j
  | _ + 1, α, ts, i, hlt, hi => by
    rcases Fin.eq_zero_or_eq_succ i with h0 | ⟨i0, hi0⟩
    · subst h0
      rw [Zip.next_nil α ts hi]
      refine ⟨rfl, fun j => ?_⟩
      rw [if_neg (Fin.not_lt_zero j)]
    · subst hi0
      rcases hts : ts 0 with _ | ⟨x, rest⟩
      · exact absurd hts (hlt 0 i0.succ_pos)
      · have ih := Zip.next_first_empty (fun i => α i.succ) (fun i => ts i.succ) i0
          (fun j hj => hlt j.succ (Fin.succ_lt_succ_iff.mpr hj)) hi
        rw [Zip.next_cons α ts x rest hts]
        refine ⟨by simp [ih.1], fun j => ?_⟩
        induction j using Fin.cases with
        | zero =>
          rw [if_pos i0.succ_pos]
          simp [hts]
        | succ m =>
          have := ih.2 m
          simp only [Fin.cons_succ, Fin.succ_lt_succ_iff]
          exact this

/-! ## Helper lemmas on `minLen` -/

theorem minLen_le : ∀ {n : Nat} (α : Fin (n + 1) → Type u)
    (ts : (i : Fin (n + 1)) → List (α i)) (i : Fin (n + 1)),
    minLen α ts ≤ (ts i).length
  | 0, α, ts, i => by
    have : i = 0 := Fin.eq_zero i
    subst this
    exact Nat.le_refl _
  | n + 1, α, ts, i => by
    induction i using Fin.cases with
    | zero => exact Nat.min_le_left _ _
    | succ j =>
      exact Nat.le_trans (Nat.min_le_right _ _)
        (minLen_le (fun i => α i.succ) (fun i => ts i.succ) j)

theorem minLen_mem : ∀ {n : Nat} (α : Fin (n + 1) → Type u)
    (ts : (i : Fin (n + 1)) → List (α i)), ∃ i, minLen α ts = (ts i).length
  | 0, α, ts => ⟨0, rfl⟩
  | n + 1, α, ts => by
    obtain ⟨j, hj⟩ := minLen_mem (fun i => α i.succ) (fun i => ts i.succ)
    by_cases h : (ts 0).length ≤ minLen (fun i => α i.succ) (fun i => ts i.succ)
    · exact ⟨0, by simp [minLen, Nat.min_eq_left h]⟩
    · refine ⟨j.succ, ?_⟩
      simp only [minLen]
      rw [Nat.min_eq_right (Nat.le_of_not_le h)]
      exact hj

theorem minLen_pos_iff {n : Nat} (α : Fin (n + 1) → Type u)
    (ts : (i : Fin (n + 1)) → List (α i)) :
    0 < minLen α ts ↔ ∀ i, ts i ≠ [] := by
  constructor
  · intro h i hnil
    have := minLen_le α ts i
    rw [hnil] at this
    simp at this
    omega
  · intro h
    obtain ⟨i, hi⟩ := minLen_mem α ts
    rw [hi]
    exact List.length_pos.mpr (h i)

theorem minLen_tail : ∀ {n : Nat} (α : Fin (n + 1) → Type u)
    (ts : (i : Fin (n + 1)) → List (α i)),
    minLen α (fun i => (ts i).tail) = minLen α ts - 1
  | 0, α, ts => by simp [minLen]
  | n + 1, α, ts => by
    have ih := minLen_tail (fun i => α i.succ) (fun i => ts i.succ)
    simp only [minLen, List.length_tail] at ih ⊢
    omega

/-! ## Helper lemmas on folded minima -/

theorem foldl_min_le_init : ∀ (l : List Nat) (a : Nat), l.foldl min a ≤ a
  | [], _ => Nat.le_refl _
  | x :: tl, a => Nat.le_trans (foldl_min_le_init tl (min a x)) (Nat.min_le_left _ _)

theorem foldl_min_le_mem : ∀ (l : List Nat) (a : Nat) (x : Nat), x ∈ l → l.foldl min a ≤ x
  | y :: tl, a, x, hx => by
    rcases List.mem_cons.mp hx with h | h
    · subst h
      exact Nat.le_trans (foldl_min_le_init tl (min a x)) (Nat.min_le_right _ _)
    · exact foldl_min_le_mem tl (min a y) x h

theorem foldl_min_eq_init_or_mem : ∀ (l : List Nat) (a : Nat),
    l.foldl min a = a ∨ l.foldl min a ∈ l
  | [], a => Or.inl rfl
  | x :: tl, a => by
    simp only [List.foldl_cons]
    rcases foldl_min_eq_init_or_mem tl (min a x) with h | h
    · rcases Nat.le_total a x with hax | hxa
      · rw [Nat.min_eq_left hax] at h ⊢
        exact Or.inl h
      · rw [Nat.min_eq_right hxa] at h ⊢
        refine Or.inr ?_
        rw [h]
        exact List.mem_cons_self x tl
    · exact Or.inr (List.mem_cons_of_mem x h)

/-! ## Helper lemmas on lists -/

theorem tail_get? {γ : Type u} (l : List γ) (k : Nat) : l.tail.get? k = l.get? (k + 1) := by
  cases l <;> rfl

theorem get?_zero_head {γ : Type u} (l : List γ) (h : l ≠ []) : l.get? 0 = some (l.head h) := by
  cases l with
  | nil => exact absurd rfl h
  | cons a t => rfl

/-! ## The full run of `Zip` -/

theorem Zip.run_minLen : ∀ (m : Nat) {n : Nat} (α : Fin (n + 1) → Type u)
    (ts : (i : Fin (n + 1)) → List (α i)), minLen α ts = m →
    (Zip.run α m ts).1.length = m ∧
      (∀ (k : Nat) (i : Fin (n + 1)), k < m →
        ((Zip.run α m ts).1.get? k).map (fun tup => tup i) = (ts i).get? k) ∧
      (Zip.next α (Zip.run α m ts).2).1 = none
  | 0, n, α, ts, hm => by
    refine ⟨rfl, fun k i hk => absurd hk (Nat.not_lt_zero k), ?_⟩
    obtain ⟨i, hi⟩ := minLen_mem α ts
    rw [hm] at hi
    exact Zip.next_fst_of_empty α ts i (List.length_eq_zero.mp hi.symm)
  | m + 1, n, α, ts, hm => by
    have hne : ∀ i, ts i ≠ [] := (minLen_pos_iff α ts).mp (by omega)
    have hnext := Zip.next_of_nonempty α ts hne
    have htails : minLen α (fun i => (ts i).tail) = m := by
      have := minLen_tail α ts
      omega
    have ih := Zip.run_minLen m α (fun i => (ts i).tail) htails
    have hrun : Zip.run α (m + 1) ts =
        ((fun i => (ts i).head (hne i)) :: (Zip.run α m (fun i => (ts i).tail)).1,
          (Zip.run α m (fun i => (ts i).tail)).2) := by
      simp [Zip.run, hnext]
    rw [hrun]
    refine ⟨by simp [ih.1], fun k i hk => ?_, ih.2.2⟩
    cases k with
    | zero =>
      simp only [List.get?]
      rw [get?_zero_head (ts i) (hne i)]
      rfl
    | succ k =>
      simp only [List.get?]
      rw [ih.2.1 k i (by omega), tail_get?]

/-! ## Characterizing the folds inside the two `size_hint`s -/

theorem foldl_combineHint_fst : ∀ (hints : List (Nat × Option Nat)) (a : Nat) (b : Option Nat),
    (hints.foldl combineHint (a, b)).1 = (hints.map Prod.fst).foldl min a
  | [], _, _ => rfl
  | p :: tl, a, b => by
    simp only [List.foldl_cons, List.map_cons, combineHint]
    exact foldl_combineHint_fst tl (min a p.1) (ominNat b p.2)

theorem foldl_combineHint_snd : ∀ (hints : List (Nat × Option Nat)) (a : Nat) (b : Option Nat),
    (hints.foldl combineHint (a, b)).2 = (hints.map Prod.snd).foldl ominNat b
  | [], _, _ => rfl
  | p :: tl, a, b => by
    simp only [List.foldl_cons, List.map_cons, combineHint]
    exact foldl_combineHint_snd tl (min a p.1) (ominNat b p.2)

theorem ominNat_eq_none_iff (x y : Option Nat) : ominNat x y = none ↔ x = none ∧ y = none := by
  cases x <;> cases y <;> simp [ominNat]

theorem ominNat_eq_some (x y : Option Nat) (u : Nat) (h : ominNat x y = some u) :
    (∀ v, x = some v → u ≤ v) ∧ (∀ v, y = some v → u ≤ v) ∧ (x = some u ∨ y = some u) := by
  cases x <;> cases y <;> simp_all [ominNat]
  omega

theorem foldl_ominNat_none_iff : ∀ (l : List (Option Nat)) (b : Option Nat),
    l.foldl ominNat b = none ↔ b = none ∧ ∀ x ∈ l, x = none
  | [], b => by simp
  | y :: tl, b => by
    simp only [List.foldl_cons, List.mem_cons]
    rw [foldl_ominNat_none_iff tl (ominNat b y), ominNat_eq_none_iff]
    constructor
    · rintro ⟨⟨hb, hy⟩, htl⟩
      exact ⟨hb, fun x hx => hx.elim (fun h => h ▸ hy) (htl x)⟩
    · rintro ⟨hb, hall⟩
      exact ⟨⟨hb, hall y (Or.inl rfl)⟩, fun x hx => hall x (Or.inr hx)⟩

theorem foldl_ominNat_some : ∀ (l : List (Option Nat)) (b : Option Nat) (u : Nat),
    l.foldl ominNat b = some u →
    (∀ v, b = some v → u ≤ v) ∧ (∀ x ∈ l, ∀ v, x = some v → u ≤ v) ∧
      (b = some u ∨ some u ∈ l)
  | [], b, u, h => by
    simp only [List.foldl_nil] at h
    exact ⟨fun v hv => by rw [h] at hv; simp at hv; omega,
      fun x hx => absurd hx (List.not_mem_nil x), Or.inl h⟩
  | y :: tl, b, u, h => by
    simp only [List.foldl_cons] at h
    obtain ⟨hacc, htl, hmem⟩ := foldl_ominNat_some tl (ominNat b y) u h
    have hb : ∀ v, b = some v → u ≤ v := by
      intro v hv
      cases hy : y with
      | none => exact hacc v (by rw [hv, hy]; rfl)
      | some w =>
        have := hacc (min v w) (by rw [hv, hy]; rfl)
        exact Nat.le_trans this (Nat.min_le_left v w)
    have hyb : ∀ v, y = some v → u ≤ v := by
      intro v hv
      cases hbb : b with
      | none => exact hacc v (by rw [hv, hbb]; rfl)
      | some w =>
        have := hacc (min w v) (by rw [hv, hbb]; rfl)
        exact Nat.le_trans this (Nat.min_le_right w v)
    refine ⟨hb, fun x hx => ?_, ?_⟩
    · rcases List.mem_cons.mp hx with h1 | h1
      · exact h1 ▸ hyb
      · exact htl x h1
    · rcases hmem with h1 | h1
      · rcases ominNat_eq_some b y u h1 with ⟨_, _, h2 | h2⟩
        · exact Or.inl h2
        · exact Or.inr (List.mem_cons.mpr (Or.inl h2.symm))
      · exact Or.inr (List.mem_cons.mpr (Or.inr h1))

/-! ## Helper lemmas on `ZipTrusted` -/

theorem set_length_exact {n : Nat} (α : Fin (n + 1) → Type u)
    (t : (i : Fin (n + 1)) → List (α i)) (hle : ∀ i, (t i).length ≤ USIZE_MAX) :
    ZipTrusted.set_length (exactHints α t) = minLen α t := by
  have hfold : ZipTrusted.set_length (exactHints α t) =
      (List.ofFn fun i => (t i).length).foldl min USIZE_MAX := by
    simp [ZipTrusted.set_length, exactHints]
  rw [hfold]
  apply Nat.le_antisymm
  · obtain ⟨j, hj⟩ := minLen_mem α t
    rw [hj]
    exact foldl_min_le_mem _ _ _ (by rw [List.mem_ofFn]; exact ⟨j, rfl⟩)
  · rcases foldl_min_eq_init_or_mem (List.ofFn fun i => (t i).length) USIZE_MAX with h | h
    · rw [h]
      exact Nat.le_trans (minLen_le α t 0) (hle 0)
    · rw [List.mem_ofFn] at h
      obtain ⟨i, hi⟩ := h
      rw [← hi]
      exact minLen_le α t i

theorem ZipTrusted.next_of_length_zero {n : Nat} {α : Fin n → Type u} (z : ZipTrusted α)
    (h : z.length = 0) : z.next = (none, z) := by
  simp [ZipTrusted.next, h]

theorem ZipTrusted.next_of_pos_nonempty {n : Nat} {α : Fin n → Type u} (z : ZipTrusted α)
    (h : z.length ≠ 0) (hall : ∀ i, z.t i ≠ []) :
    z.next = (some (fun i => (z.t i).head (hall i)),
      { length := z.length - 1, t := fun i => (z.t i).tail }) := by
  simp [ZipTrusted.next, h, Zip.next_of_nonempty α z.t hall]

theorem ZipTrusted.next_of_pos_empty {n : Nat} {α : Fin n → Type u} (z : ZipTrusted α)
    (h : z.length ≠ 0) (i : Fin n) (hi : z.t i = []) :
    z.next.1 = none ∧ z.next.2.length = z.length ∧ z.next.2.t = (Zip.next α z.t).2 := by
  have h1 := Zip.next_fst_of_empty α z.t i hi
  rcases hz : Zip.next α z.t with ⟨o, t'⟩
  rw [hz] at h1
  simp only at h1
  subst h1
  simp [ZipTrusted.next, h, hz]

theorem ZipTrusted.next_invariant {n : Nat} {α : Fin (n + 1) → Type u} (z : ZipTrusted α)
    (hinv : z.length = minLen α z.t) :
    z.next.2.length = minLen α z.next.2.t := by
  by_cases h0 : z.length = 0
  · rw [ZipTrusted.next_of_length_zero z h0]
    exact hinv
  · have hall : ∀ i, z.t i ≠ [] :=
      (minLen_pos_iff α z.t).mp (hinv ▸ Nat.pos_of_ne_zero h0)
    rw [ZipTrusted.next_of_pos_nonempty z h0 hall]
    simp only
    rw [minLen_tail α z.t]
    omega

theorem ZipTrusted.run_of_length_zero {n : Nat} {α : Fin n → Type u} (k : Nat)
    (z : ZipTrusted α) (h : z.length = 0) : ZipTrusted.run α k z = ([], z) := by
  cases k with
  | zero => rfl
  | succ k => simp [ZipTrusted.run, ZipTrusted.next_of_length_zero z h]

theorem ZipTrusted.run_exact : ∀ (m : Nat) {n : Nat} (α : Fin (n + 1) → Type u)
    (z : ZipTrusted α), z.length = minLen α z.t → z.length = m →
    (ZipTrusted.run α m z).1.length = m ∧ (ZipTrusted.run α m z).2.length = 0 ∧
      (ZipTrusted.run α m z).2.length = minLen α (ZipTrusted.run α m z).2.t
  | 0, n, α, z, hinv, hm => ⟨rfl, hm, by simp only [ZipTrusted.run]; exact hinv⟩
  | m + 1, n, α, z, hinv, hm => by
    have h0 : z.length ≠ 0 := by omega
    have hall : ∀ i, z.t i ≠ [] :=
      (minLen_pos_iff α z.t).mp (hinv ▸ Nat.pos_of_ne_zero h0)
    have hnext := ZipTrusted.next_of_pos_nonempty z h0 hall
    have hinv' := ZipTrusted.next_invariant z hinv
    rw [hnext] at hinv'
    have ih := ZipTrusted.run_exact m α
      { length := z.length - 1, t := fun i => (z.t i).tail } hinv' (by simp; omega)
    have hrun : ZipTrusted.run α (m + 1) z =
        ((fun i => (z.t i).head (hall i)) ::
            (ZipTrusted.run α m { length := z.length - 1, t := fun i => (z.t i).tail }).1,
          (ZipTrusted.run α m { length := z.length - 1, t := fun i => (z.t i).tail }).2) := by
      simp [ZipTrusted.run, hnext]
    rw [hrun]
    exact ⟨by simp [ih.1], ih.2.1, ih.2.2⟩

theorem ZipTrusted.next_some_length {n : Nat} {α : Fin n → Type u} (z : ZipTrusted α)
    (tup : (i : Fin n) → α i) (z' : ZipTrusted α) (h : z.next = (some tup, z')) :
    z'.length + 1 = z.length := by
  by_cases h0 : z.length = 0
  · rw [ZipTrusted.next_of_length_zero z h0] at h
    simp at h
  · rcases hz : Zip.next α z.t with ⟨o, t'⟩
    rcases o with _ | tup0
    · simp [ZipTrusted.next, h0, hz] at h
    · simp only [ZipTrusted.next, if_neg h0, hz, Prod.mk.injEq, Option.some.injEq] at h
      rw [← h.2]
      simp only
      omega

/-! ## The claims -/

/-- C1, counterexample: with two components whose size hints are `(0, None)`
and `(5, Some 5)` — so one component's upper bound is absent — the claim
demands an absent upper bound, but `Zip::size_hint` returns `Some 5`
(`high.or(h)` keeps any upper bound that is present). -/
theorem C1_counterexample :
    (((0 : Nat), (none : Option Nat)) ∈ [((0 : Nat), (none : Option Nat)), (5, some 5)] ∧
      ((0 : Nat), (none : Option Nat)).2 = none) ∧
    (Zip.size_hint [((0 : Nat), (none : Option Nat)), (5, some 5)]).2 ≠ none := by
  decide

/-- C1, amended: for a nonempty tuple of components (lower bounds being
`usize` values), `Zip::size_hint` returns a lower bound equal to the minimum
of the components' lower bounds, and an upper bound equal to the minimum of
the upper bounds of those components that report one — absent precisely when
no component reports an upper bound (not when some component's is absent). -/
theorem C1_size_hint_bounds (hints : List (Nat × Option Nat)) (hne : hints ≠ [])
    (hlo : ∀ p ∈ hints, p.1 ≤ USIZE_MAX) :
    (∀ p ∈ hints, (Zip.size_hint hints).1 ≤ p.1) ∧
    (∃ p ∈ hints, (Zip.size_hint hints).1 = p.1) ∧
    ((Zip.size_hint hints).2 = none ↔ ∀ p ∈ hints, p.2 = none) ∧
    (∀ u, (Zip.size_hint hints).2 = some u →
      (∀ p ∈ hints, ∀ v, p.2 = some v → u ≤ v) ∧ ∃ p ∈ hints, p.2 = some u) := by
  obtain ⟨p0, tl, rfl⟩ := List.exists_cons_of_ne_nil hne
  have hfst : (Zip.size_hint (p0 :: tl)).1 = ((p0 :: tl).map Prod.fst).foldl min USIZE_MAX :=
    foldl_combineHint_fst (p0 :: tl) USIZE_MAX none
  have hsnd : (Zip.size_hint (p0 :: tl)).2 = ((p0 :: tl).map Prod.snd).foldl ominNat none :=
    foldl_combineHint_snd (p0 :: tl) USIZE_MAX none
  refine ⟨?_, ?_, ?_, ?_⟩
  · intro p hp
    rw [hfst]
    exact foldl_min_le_mem _ _ _ (List.mem_map.mpr ⟨p, hp, rfl⟩)
  · rcases foldl_min_eq_init_or_mem ((p0 :: tl).map Prod.fst) USIZE_MAX with h | h
    · have hle0 : ((p0 :: tl).map Prod.fst).foldl min USIZE_MAX ≤ p0.1 :=
        foldl_min_le_mem _ _ _ (List.mem_map.mpr ⟨p0, List.mem_cons_self p0 tl, rfl⟩)
      rw [h] at hle0
      refine ⟨p0, List.mem_cons_self p0 tl, ?_⟩
      rw [hfst, h]
      exact Nat.le_antisymm hle0 (hlo p0 (List.mem_cons_self p0 tl))
    · obtain ⟨p, hp, hpe⟩ := List.mem_map.mp h
      exact ⟨p, hp, by rw [hfst, ← hpe]⟩
  · rw [hsnd, foldl_ominNat_none_iff]
    constructor
    · rintro ⟨-, h⟩ p hp
      exact h p.2 (List.mem_map.mpr ⟨p, hp, rfl⟩)
    · intro h
      refine ⟨rfl, fun x hx => ?_⟩
      obtain ⟨p, hp, rfl⟩ := List.mem_map.mp hx
      exact h p hp
  · intro u hu
    rw [hsnd] at hu
    obtain ⟨-, hall, hmem⟩ := foldl_ominNat_some _ _ _ hu
    refine ⟨fun p hp v hv => hall p.2 (List.mem_map.mpr ⟨p, hp, rfl⟩) v hv, ?_⟩
    rcases hmem with h | h
    · exact absurd h (by simp)
    · obtain ⟨p, hp, hpe⟩ := List.mem_map.mp h
      exact ⟨p, hp, hpe⟩

/-- Witness for C1 (amended), on component hints `(3, Some 4)` and
`(2, None)`. -/
theorem C1_witness :
    (∀ p ∈ [((3 : Nat), some (4 : Nat)), (2, none)],
      (Zip.size_hint [((3 : Nat), some (4 : Nat)), (2, none)]).1 ≤ p.1) ∧
    ∃ p ∈ [((3 : Nat), some (4 : Nat)), (2, none)],
      (Zip.size_hint [((3 : Nat), some (4 : Nat)), (2, none)]).1 = p.1 := by
  have h := C1_size_hint_bounds [((3 : Nat), some (4 : Nat)), (2, none)]
    (by decide) (by decide)
  exact ⟨h.1, h.2.1⟩

/-- C2: for every tuple of `n + 1` component sequences (the macro covers
arities 1..9 uniformly), iterating the General Zip produces exactly
`min(L1..LN)` tuples — the `k`-th tuple holding the `k`-th element of every
component, in component order — and the call after that signals
exhaustion. -/
theorem C2_zip_yields_min_tuples {n : Nat} (α : Fin (n + 1) → Type u)
    (ts : (i : Fin (n + 1)) → List (α i)) :
    (Zip.run α (minLen α ts) ts).1.length = minLen α ts ∧
    (∀ (k : Nat) (i : Fin (n + 1)), k < minLen α ts →
      ((Zip.run α (minLen α ts) ts).1.get? k).map (fun tup => tup i) = (ts i).get? k) ∧
    (Zip.next α (Zip.run α (minLen α ts) ts).2).1 = none :=
  Zip.run_minLen (minLen α ts) α ts rfl

/-- Witness for C2, scenario A: components of lengths 3, 5, 4 yield exactly 3
tuples; the second tuple's third slot holds the third component's second
element, 9. -/
theorem C2_witness :
    (Zip.run (fun _ : Fin 3 => Nat)
        (minLen (fun _ : Fin 3 => Nat) ![[0, 1, 2], [3, 4, 5, 6, 7], [8, 9, 10, 11]])
        ![[0, 1, 2], [3, 4, 5, 6, 7], [8, 9, 10, 11]]).1.length = 3 ∧
    ((Zip.run (fun _ : Fin 3 => Nat)
        (minLen (fun _ : Fin 3 => Nat) ![[0, 1, 2], [3, 4, 5, 6, 7], [8, 9, 10, 11]])
        ![[0, 1, 2], [3, 4, 5, 6, 7], [8, 9, 10, 11]]).1.get? 1).map (fun tup => tup 2)
      = some 9 := by
  have hm : minLen (fun _ : Fin 3 => Nat) ![[0, 1, 2], [3, 4, 5, 6, 7], [8, 9, 10, 11]] = 3 := by
    decide
  have h := C2_zip_yields_min_tuples (fun _ : Fin 3 => Nat)
    ![[0, 1, 2], [3, 4, 5, 6, 7], [8, 9, 10, 11]]
  constructor
  · rw [h.1, hm]
  · rw [h.2.1 1 2 (by rw [hm]; omega)]
    decide

/-- C3: with components honouring the exact-size contract (each reporting
`(Li, Some Li)` with `Li` its actual length), the constructed `remaining`
equals `min(L1..LN)`; every successful step decrements `remaining` by exactly
one; after `min(L1..LN)` produced tuples it is exactly 0; and every step from
then on yields exhaustion. -/
theorem C3_trusted_remaining {n : Nat} (α : Fin (n + 1) → Type u)
    (t : (i : Fin (n + 1)) → List (α i)) (hle : ∀ i, (t i).length ≤ USIZE_MAX) :
    (ZipTrusted.new α (exactHints α t) t).length = minLen α t ∧
    (∀ (z : ZipTrusted α) (tup : (i : Fin (n + 1)) → α i) (z' : ZipTrusted α),
      z.next = (some tup, z') → z'.length + 1 = z.length) ∧
    (ZipTrusted.run α (minLen α t) (ZipTrusted.new α (exactHints α t) t)).1.length
      = minLen α t ∧
    (ZipTrusted.run α (minLen α t) (ZipTrusted.new α (exactHints α t) t)).2.length = 0 ∧
    (∀ k : Nat, (ZipTrusted.run α k
      (ZipTrusted.run α (minLen α t) (ZipTrusted.new α (exactHints α t) t)).2).1 = []) := by
  have h1 : (ZipTrusted.new α (exactHints α t) t).length = minLen α t :=
    set_length_exact α t hle
  have hrun := ZipTrusted.run_exact (minLen α t) α
    (ZipTrusted.new α (exactHints α t) t) h1 h1
  refine ⟨h1, fun z tup z' h => ZipTrusted.next_some_length z tup z' h,
    hrun.1, hrun.2.1, fun k => ?_⟩
  rw [ZipTrusted.run_of_length_zero k _ hrun.2.1]

/-- Witness for C3, on exact-size components of lengths 2 and 3. -/
theorem C3_witness :
    (ZipTrusted.new (fun _ : Fin 2 => Nat)
      (exactHints (fun _ : Fin 2 => Nat) ![[1, 2], [3, 4, 5]]) ![[1, 2], [3, 4, 5]]).length
        = 2 ∧
    (ZipTrusted.run (fun _ : Fin 2 => Nat) 2
      (ZipTrusted.new (fun _ : Fin 2 => Nat)
        (exactHints (fun _ : Fin 2 => Nat) ![[1, 2], [3, 4, 5]])
        ![[1, 2], [3, 4, 5]])).2.length = 0 := by
  have hm : minLen (fun _ : Fin 2 => Nat) ![[1, 2], [3, 4, 5]] = 2 := by decide
  have h := C3_trusted_remaining (fun _ : Fin 2 => Nat) ![[1, 2], [3, 4, 5]] (by decide)
  rw [hm] at h
  exact ⟨h.1, h.2.2.2.1⟩

/-- C4: on the terminating call of `Zip::next` — component `i` is the first
to be exhausted — every component before `i` has been advanced by exactly one
element (its yielded value discarded), no component after `i` is pulled (its
state is unchanged), and the call returns `None`. -/
theorem C4_partial_consumption {n : Nat} (α : Fin n → Type u)
    (ts : (i : Fin n) → List (α i)) (i : Fin n)
    (hbefore : ∀ j, j < i → ts j ≠ []) (hi : ts i = []) :
    (Zip.next α ts).1 = none ∧
    (∀ j, j < i → (Zip.next α ts).2 j = (ts j).tail) ∧
    (∀ j, ¬j < i → (Zip.next α ts).2 j = ts j) := by
  have h := Zip.next_first_empty α ts i hbefore hi
  exact ⟨h.1, fun j hj => by rw [h.2 j, if_pos hj],
    fun j hj => by rw [h.2 j, if_neg hj]⟩

/-- Witness for C4: components `[1, 2]`, `[]`, `[5, 6]`; the middle one is
the first exhausted, the first is advanced to `[2]`, the third untouched. -/
theorem C4_witness :
    (Zip.next (fun _ : Fin 3 => Nat) ![[1, 2], [], [5, 6]]).1 = none ∧
    (Zip.next (fun _ : Fin 3 => Nat) ![[1, 2], [], [5, 6]]).2 0 = [2] ∧
    (Zip.next (fun _ : Fin 3 => Nat) ![[1, 2], [], [5, 6]]).2 2 = [5, 6] := by
  have h := C4_partial_consumption (fun _ : Fin 3 => Nat) ![[1, 2], [], [5, 6]] 1
    (by decide) (by decide)
  refine ⟨h.1, ?_, ?_⟩
  · rw [h.2.1 0 (by decide)]
    decide
  · rw [h.2.2 2 (by decide)]
    decide

/-- C5: under the exact-size contract — every component still holds at least
`remaining` elements — and `remaining > 0`, the pull loop inside
`ZipTrusted::next` cannot observe exhaustion: the step yields a tuple, so the
unchecked `assume` is valid. -/
theorem C5_assume_valid {n : Nat} {α : Fin n → Type u} (z : ZipTrusted α)
    (h0 : z.length ≠ 0) (hc : ∀ i, z.length ≤ (z.t i).length) :
    (z.next.1).isSome = true := by
  have hall : ∀ i, z.t i ≠ [] := by
    intro i h
    have hb := hc i
    rw [h] at hb
    simp at hb
    exact h0 hb
  rw [ZipTrusted.next_of_pos_nonempty z h0 hall]
  rfl

/-- Witness for C5: cached count 2, components of lengths 3 and 2. -/
theorem C5_witness :
    ((ZipTrusted.mk 2 ![[1, 2, 3], [4, 5]] :
      ZipTrusted (fun _ : Fin 2 => Nat)).next.1).isSome = true :=
  C5_assume_valid (ZipTrusted.mk 2 ![[1, 2, 3], [4, 5]]) (by decide) (by decide)

/-- C6: the invariant `remaining = min of the components' current remaining
counts` holds after construction from exact-size components, is preserved by
every step, and once `remaining = 0` a step yields nothing and leaves the
state unchanged. -/
theorem C6_invariant {n : Nat} (α : Fin (n + 1) → Type u)
    (t : (i : Fin (n + 1)) → List (α i)) (hle : ∀ i, (t i).length ≤ USIZE_MAX) :
    (ZipTrusted.new α (exactHints α t) t).length
      = minLen α (ZipTrusted.new α (exactHints α t) t).t ∧
    (∀ z : ZipTrusted α, z.length = minLen α z.t →
      z.next.2.length = minLen α z.next.2.t) ∧
    (∀ z : ZipTrusted α, z.length = 0 → z.next = (none, z)) :=
  ⟨set_length_exact α t hle, fun z hz => ZipTrusted.next_invariant z hz,
    fun z hz => ZipTrusted.next_of_length_zero z hz⟩

/-- Witness for C6: stepping the state with cached count 1 over components
`[7]` and `[8, 9]` preserves the invariant. -/
theorem C6_witness :
    (ZipTrusted.mk 1 ![[7], [8, 9]] :
      ZipTrusted (fun _ : Fin 2 => Nat)).next.2.length
      = minLen (fun _ : Fin 2 => Nat)
        (ZipTrusted.mk 1 ![[7], [8, 9]] :
          ZipTrusted (fun _ : Fin 2 => Nat)).next.2.t :=
  (C6_invariant (fun _ : Fin 2 => Nat) ![[7], [8, 9]] (by decide)).2.1
    (ZipTrusted.mk 1 ![[7], [8, 9]]) (by decide)

/-- C7: `ZipTrusted::size_hint` returns exactly `(remaining, Some remaining)`
at every state; in particular `(L, Some L)` with `L = min(L1..LN)` right after
construction from exact-size components, and `(0, Some 0)` after the run that
exhausts it. -/
theorem C7_trusted_size_hint {n : Nat} (α : Fin (n + 1) → Type u)
    (t : (i : Fin (n + 1)) → List (α i)) (hle : ∀ i, (t i).length ≤ USIZE_MAX) :
    (∀ z : ZipTrusted α, z.size_hint = (z.length, some z.length)) ∧
    (ZipTrusted.new α (exactHints α t) t).size_hint = (minLen α t, some (minLen α t)) ∧
    (ZipTrusted.run α (minLen α t)
      (ZipTrusted.new α (exactHints α t) t)).2.size_hint = (0, some 0) := by
  have h1 : (ZipTrusted.new α (exactHints α t) t).length = minLen α t :=
    set_length_exact α t hle
  have hrun := ZipTrusted.run_exact (minLen α t) α
    (ZipTrusted.new α (exactHints α t) t) h1 h1
  refine ⟨fun z => rfl, ?_, ?_⟩
  · simp only [ZipTrusted.size_hint, h1]
  · simp only [ZipTrusted.size_hint, hrun.2.1]

/-- Witness for C7, scenario B: two exact-size components of length 5;
`size_hint` is `(5, Some 5)` at construction and `(0, Some 0)` after the
five-step run. -/
theorem C7_witness :
    (ZipTrusted.new (fun _ : Fin 2 => Nat)
      (exactHints (fun _ : Fin 2 => Nat) ![[0, 1, 2, 3, 4], [5, 6, 7, 8, 9]])
      ![[0, 1, 2, 3, 4], [5, 6, 7, 8, 9]]).size_hint = (5, some 5) ∧
    (ZipTrusted.run (fun _ : Fin 2 => Nat) 5
      (ZipTrusted.new (fun _ : Fin 2 => Nat)
        (exactHints (fun _ : Fin 2 => Nat) ![[0, 1, 2, 3, 4], [5, 6, 7, 8, 9]])
        ![[0, 1, 2, 3, 4], [5, 6, 7, 8, 9]])).2.size_hint = (0, some 0) := by
  have hm : minLen (fun _ : Fin 2 => Nat) ![[0, 1, 2, 3, 4], [5, 6, 7, 8, 9]] = 5 := by decide
  have h := C7_trusted_size_hint (fun _ : Fin 2 => Nat)
    ![[0, 1, 2, 3, 4], [5, 6, 7, 8, 9]] (by decide)
  rw [hm] at h
  exact ⟨h.2.1, h.2.2⟩

/-- C8: when the cached `remaining` is 0, `ZipTrusted::next` returns `None`
and the state — every component included — is exactly unchanged. -/
theorem C8_zero_remaining_no_touch {n : Nat} {α : Fin n → Type u} (z : ZipTrusted α)
    (h : z.length = 0) : z.next = (none, z) :=
  ZipTrusted.next_of_length_zero z h

/-- Witness for C8: cached count 0 over nonempty components. -/
theorem C8_witness :
    (ZipTrusted.mk 0 ![[1], [2, 3]] : ZipTrusted (fun _ : Fin 2 => Nat)).next
      = (none, ZipTrusted.mk 0 ![[1], [2, 3]]) :=
  C8_zero_remaining_no_touch (ZipTrusted.mk 0 ![[1], [2, 3]]) rfl

/-- C9: `size_hint` borrows `self` immutably in both variants; in the
state-passing rendering the call returns the state unchanged, so a repeated
call returns the same value and the state after two calls equals the state
before the first. -/
theorem C9_size_hint_stable {n : Nat} {α : Fin n → Type u} :
    (∀ hints : List (Nat × Option Nat),
      (Zip.size_hint_call hints).2 = hints ∧
      (Zip.size_hint_call (Zip.size_hint_call hints).2).1 = (Zip.size_hint_call hints).1) ∧
    (∀ z : ZipTrusted α,
      (ZipTrusted.size_hint_call z).2 = z ∧
      (ZipTrusted.size_hint_call (ZipTrusted.size_hint_call z).2).1
        = (ZipTrusted.size_hint_call z).1) :=
  ⟨fun _ => ⟨rfl, rfl⟩, fun _ => ⟨rfl, rfl⟩⟩

/-- C10: at source level (the `assume` intrinsic being a no-op), a component
reporting exhaustion while `remaining > 0` makes the step return `None`
without decrementing the cached `remaining`. -/
theorem C10_violation_returns_none {n : Nat} {α : Fin n → Type u} (z : ZipTrusted α)
    (h0 : z.length ≠ 0) (i : Fin n) (hi : z.t i = []) :
    z.next.1 = none ∧ z.next.2.length = z.length :=
  ⟨(ZipTrusted.next_of_pos_empty z h0 i hi).1,
    (ZipTrusted.next_of_pos_empty z h0 i hi).2.1⟩

/-- Witness for C10: cached count 3 (a broken exact-size grant) with the
second component already empty. -/
theorem C10_witness :
    (ZipTrusted.mk 3 ![[1, 2], []] : ZipTrusted (fun _ : Fin 2 => Nat)).next.1 = none ∧
    (ZipTrusted.mk 3 ![[1, 2], []] :
      ZipTrusted (fun _ : Fin 2 => Nat)).next.2.length = 3 :=
  C10_violation_returns_none (ZipTrusted.mk 3 ![[1, 2], []]) (by decide) 1 (by decide)

end Itertools
